import Mathlib

/-!
Shallow embedding of the adaptive image-compression search of the
`image-resizer` repository (authoritative implementation: `src/image_api.py`,
which the specification follows as the "most refined version"), together with
the batch-orchestrator accounting of `process_images` and the scale-condition
logic, and proofs of the specified properties.

Modelling conventions:
* Encoded payloads are modelled by their byte length (`Nat`); the only fact the
  search reads off a payload is `len(bytes)`, and `sizeKB = len(bytes) / 1024`
  is represented exactly in `ℚ` (IEEE doubles represent `n / 1024` exactly for
  all sizes in range, and the step variable only takes values `50 / 2^k`, also
  exact, so `ℚ` is a faithful model of the Python floats involved).
* The encoder is an arbitrary deterministic function
  `enc : quality → method → byte length`, modelling `get_size_for_quality`.
* `math.log` is an uninterpreted parameter `logf : ℚ → ℚ`: the claims never
  depend on its values, only on the guard structure around it.
* Logging callbacks and the pause/stop/skip controller inside `compress_image`
  are pure side channels (they do not alter the search state) and are omitted;
  stop/skip/error outcomes at the batch level are modelled as per-file events.
* Python `//` on nonnegative ints coincides with `Int` division `/` here
  (Euclidean = floor for positive divisors); `int(step)` truncation coincides
  with `pyFloor` because `step > 0` wherever it is taken.
-/

namespace ImageResizer

/-- Upper-cased output format (`config.output_format.upper()`). -/
inductive Fmt
  | PNG
  | WEBP
  | JPEG
  | HEIF
  deriving DecidableEq

/-- One history entry `(quality, size_kb, bytes)` of `compress_image`;
`payload` is the encoded byte string, recorded by its length. -/
structure EncodeTrial where
  quality : Int
  sizeKB : ℚ
  payload : Nat
  deriving DecidableEq

/-- The tuple `(bytes, quality, size_kb, method)` returned by `compress_image`. -/
structure CompressResult where
  payload : Nat
  quality : Int
  sizeKB : ℚ
  method : Int
  deriving DecidableEq

/-- Size in KB of a payload of `n` bytes: `len(buffer.getvalue()) / 1024`. -/
def kb (n : Nat) : ℚ := (n : ℚ) / 1024

/-- Clamp to the quality range: `max(min_quality, min(max_quality, q))` with
`min_quality = 1`, `max_quality = 100`. -/
def clampQ (q : Int) : Int := max 1 (min 100 q)

/-- Floor of a rational, computable by kernel reduction
(agrees with `Int.floor`, see `pyFloor_eq_floor`). -/
def pyFloor (x : ℚ) : Int := x.num / (x.den : Int)

/-- Python 3 `round` (round-half-to-even) followed by `int(...)`. -/
def pyRound (x : ℚ) : Int :=
  let f := pyFloor x
  let frac := x - (f : ℚ)
  if frac < 1 / 2 then f
  else if 1 / 2 < frac then f + 1
  else if f % 2 = 0 then f else f + 1

/-- The function `interpolate_quality(q_low, s_low, q_high, s_high, s_target)` of
`image_api.py` (lines 121–129), with `math.log` abstracted as `logf`:

    if s_high == s_low: return q_low
    B = (log(s_high) - log(s_low)) / (q_high - q_low)
    if B == 0: return q_low
    ln_A = log(s_low) - B * q_low
    return (log(s_target) - ln_A) / B
-/
def interpolate_quality (logf : ℚ → ℚ) (qLow sLow qHigh sHigh sTarget : ℚ) : ℚ :=
  if sHigh = sLow then qLow
  else
    let B := (logf sHigh - logf sLow) / (qHigh - qLow)
    if B = 0 then qLow
    else
      let lnA := logf sLow - B * qLow
      (logf sTarget - lnA) / B

/-- Loop body of the `lower_bound` scan (lines 256–259): among trials with
`s <= target` keep the one with the largest quality (first wins on ties). -/
def lowerStep (target : ℚ) (acc : Option EncodeTrial) (t : EncodeTrial) :
    Option EncodeTrial :=
  if t.sizeKB ≤ target then
    match acc with
    | none => some t
    | some a => if t.quality > a.quality then some t else some a
  else acc

/-- The `lower_bound` value recomputed from the full history each iteration. -/
def lower_bound (target : ℚ) (history : List EncodeTrial) : Option EncodeTrial :=
  history.foldl (lowerStep target) none

/-- Loop body of the `higher_bound` scan (lines 260–262): among trials with
`s > target` keep the one with the smallest quality (first wins on ties). -/
def higherStep (target : ℚ) (acc : Option EncodeTrial) (t : EncodeTrial) :
    Option EncodeTrial :=
  if t.sizeKB > target then
    match acc with
    | none => some t
    | some a => if t.quality < a.quality then some t else some a
  else acc

/-- The `higher_bound` value recomputed from the full history each iteration. -/
def higher_bound (target : ℚ) (history : List EncodeTrial) : Option EncodeTrial :=
  history.foldl (higherStep target) none

/-- Line 264: `lower_bound and higher_bound and (higher[0] - lower[0] <= 1)`. -/
def bracketClosed : Option EncodeTrial → Option EncodeTrial → Bool
  | some lb, some hb => hb.quality - lb.quality ≤ 1
  | _, _ => false

/-- Lines 267–277: the candidate next quality before the `tried` checks.
`pyFloor step` models `int(step)` (equal for the positive `step` in scope). -/
def chooseNext (logf : ℚ → ℚ) (target step : ℚ) :
    Option EncodeTrial → Option EncodeTrial → Int
  | some lb, some hb =>
    clampQ (pyRound (interpolate_quality logf (lb.quality : ℚ) lb.sizeKB
      (hb.quality : ℚ) hb.sizeKB target))
  | some lb, none => min 100 (lb.quality + pyFloor step)
  | none, some hb => max 1 (hb.quality - pyFloor step)
  | none, none => (1 + 100) / 2

/-- Lines 279–287: the two `next_quality in tried` checks.  `none` means the
iteration probes nothing and continues with a halved step; `some nq` means
quality `nq` (not yet tried) is probed. -/
def decideProbe (tried : List Int) (lower higher : Option EncodeTrial)
    (nq : Int) : Option Int :=
  if nq ∈ tried then
    match lower, higher with
    | some lb, some hb =>
      let mid := (lb.quality + hb.quality) / 2
      if mid ∈ tried then none else some mid
    | _, _ => none
  else some nq

/-- The converge loop of `compress_image` (lines 252–303).  `fuel` models the
remaining iterations allowed by `try_count <= 10` (the counter is incremented
at the top of every iteration, probing or not), `step` the float step that
starts at `50.0`. -/
def searchLoop (enc : Int → Int → Nat) (logf : ℚ → ℚ) (target : ℚ)
    (defM : Int) :
    Nat → ℚ → List EncodeTrial → List Int → List EncodeTrial
  | 0, _, history, _ => history
  | fuel + 1, step, history, tried =>
    if step < 1 then history
    else
      let lower := lower_bound target history
      let higher := higher_bound target history
      if bracketClosed lower higher then history
      else
        match decideProbe tried lower higher
            (chooseNext logf target step lower higher) with
        | none => searchLoop enc logf target defM fuel (step / 2) history tried
        | some nq =>
          let payload := enc nq defM
          let size := kb payload
          let newStep :=
            if |size - target| < target * (10 / 100) then (1 : ℚ)
            else max 1 (step / 2)
          searchLoop enc logf target defM fuel newStep
            (history ++ [⟨nq, size, payload⟩]) (tried ++ [nq])

/-- Loop body of the final `best_under` scan (lines 307–310): among trials with
`s <= target` keep the one with the largest size (first wins on ties). -/
def bestUnderStep (target : ℚ) (acc : Option EncodeTrial) (t : EncodeTrial) :
    Option EncodeTrial :=
  if t.sizeKB ≤ target then
    match acc with
    | none => some t
    | some a => if t.sizeKB > a.sizeKB then some t else some a
  else acc

/-- The `best_under` scan of the final selection. -/
def best_under (target : ℚ) (history : List EncodeTrial) : Option EncodeTrial :=
  history.foldl (bestUnderStep target) none

/-- Python `min(history, key=lambda x: x[1])` (line 313): the first trial of
minimal size. -/
def minBySize : EncodeTrial → List EncodeTrial → EncodeTrial
  | a, [] => a
  | a, t :: ts => minBySize (if t.sizeKB < a.sizeKB then t else a) ts

/-- Python `range(webp_method_default - 1, -1, -1)` (line 326): the method values
`d-1, d-2, ..., 0` tried by the tuning loop. -/
def methodRange (d : Int) : List Int :=
  if d ≤ 0 then [] else ((List.range d.toNat).reverse).map Int.ofNat

/-- The WEBP method-tuning loop body (lines 326–341), acting on the running
`(best_size, best_bytes, best_method)` state at the fixed winning quality. -/
def tuningLoop (enc : Int → Int → Nat) (target : ℚ) (bestQuality : Int) :
    List Int → ℚ × Nat × Int → ℚ × Nat × Int
  | [], st => st
  | m :: ms, (bestSize, bestPayload, bestMethod) =>
    let tuned := enc bestQuality m
    let tunedSize := kb tuned
    if tunedSize ≤ target then
      if tunedSize > bestSize then
        tuningLoop enc target bestQuality ms (tunedSize, tuned, m)
      else
        tuningLoop enc target bestQuality ms (bestSize, bestPayload, bestMethod)
    else
      (bestSize, bestPayload, bestMethod)

/-- Lines 316–343: method tuning applied to the chosen best-under trial, and
the final return tuple.  Without tuning the chosen trial is returned with the
default method. -/
def methodTuning (fmt : Fmt) (enc : Int → Int → Nat) (target thr : ℚ)
    (defM : Int) (chosen : EncodeTrial) : CompressResult :=
  if fmt = Fmt.WEBP ∧ chosen.sizeKB < target * thr then
    let st := tuningLoop enc target chosen.quality (methodRange defM)
      (chosen.sizeKB, chosen.payload, defM)
    ⟨st.2.1, chosen.quality, st.1, st.2.2⟩
  else
    ⟨chosen.payload, chosen.quality, chosen.sizeKB, defM⟩

/-- The distinct return paths of `compress_image`, each carrying the returned
tuple; search paths also carry the final trial history, and the best-under
path carries the trial picked by the final selection before method tuning. -/
inductive Outcome
  | lossless (r : CompressResult)
  | bracketLow (r : CompressResult) (history : List EncodeTrial)
  | bracketHigh (r : CompressResult) (history : List EncodeTrial)
  | allOver (r : CompressResult) (history : List EncodeTrial)
  | selected (chosen : EncodeTrial) (r : CompressResult)
      (history : List EncodeTrial)
  deriving DecidableEq

/-- The returned `(bytes, quality, size_kb, method)` tuple of an outcome. -/
def Outcome.result : Outcome → CompressResult
  | .lossless r => r
  | .bracketLow r _ => r
  | .bracketHigh r _ => r
  | .allOver r _ => r
  | .selected _ r _ => r

/-- The quality-search history of an outcome (empty on the lossless path,
which keeps no history). -/
def Outcome.searchHistory : Outcome → List EncodeTrial
  | .lossless _ => []
  | .bracketLow _ h => h
  | .bracketHigh _ h => h
  | .allOver _ h => h
  | .selected _ _ h => h

/-- Number of encode probes performed outside method tuning: the lossless path
saves exactly once; every lossy search probe is appended to the history. -/
def Outcome.probeCount : Outcome → Nat
  | .lossless _ => 1
  | .bracketLow _ h => h.length
  | .bracketHigh _ h => h.length
  | .allOver _ h => h.length
  | .selected _ _ h => h.length

/-- Lines 248–343 of `compress_image`: the converge loop (entered with
`step = 50.0` and `try_count = len(tried)`, hence `11 - len(tried)` remaining
iterations), the final best-under selection, and method tuning.  The
`allOver` dead branch for an empty history is unreachable: the history always
contains the bootstrap trial (the `min([])` of Python would raise there). -/
def finishSearch (fmt : Fmt) (enc : Int → Int → Nat) (logf : ℚ → ℚ)
    (target thr : ℚ) (defM : Int)
    (history : List EncodeTrial) (tried : List Int) : Outcome :=
  let finalHistory := searchLoop enc logf target defM (11 - tried.length) 50
    history tried
  match best_under target finalHistory with
  | none =>
    match finalHistory with
    | [] => Outcome.allOver ⟨0, 0, 0, defM⟩ []
    | t :: ts =>
      let m := minBySize t ts
      Outcome.allOver ⟨m.payload, m.quality, m.sizeKB, defM⟩ finalHistory
  | some chosen =>
    Outcome.selected chosen (methodTuning fmt enc target thr defM chosen)
      finalHistory

/-- The function `compress_image` of `image_api.py` (lines 96–343), structured by return
path.  `pngPayload` is the byte length of the single lossless PNG save;
`enc q m` is the byte length produced by `get_size_for_quality(q, m)`;
`thr` is the tuning threshold (`config.method_tuning_threshold / 100.0`,
or the `scale_settings` override). -/
def compressFull (fmt : Fmt) (pngPayload : Nat) (enc : Int → Int → Nat)
    (logf : ℚ → ℚ) (target : ℚ) (initialQuality : Int) (defM : Int)
    (thr : ℚ) : Outcome :=
  if fmt = Fmt.PNG then
    Outcome.lossless ⟨pngPayload, 100, kb pngPayload, -1⟩
  else
    let qInit := clampQ initialQuality
    let b0 := enc qInit defM
    let t0 : EncodeTrial := ⟨qInit, kb b0, b0⟩
    if kb b0 > target then
      if qInit ≠ 1 then
        let b1 := enc 1 defM
        let t1 : EncodeTrial := ⟨1, kb b1, b1⟩
        if kb b1 > target then
          Outcome.bracketLow ⟨b1, 1, kb b1, defM⟩ [t0, t1]
        else
          finishSearch fmt enc logf target thr defM [t0, t1] [qInit, 1]
      else
        finishSearch fmt enc logf target thr defM [t0] [qInit]
    else
      if qInit ≠ 100 then
        let b100 := enc 100 defM
        let t100 : EncodeTrial := ⟨100, kb b100, b100⟩
        if kb b100 ≤ target then
          Outcome.bracketHigh ⟨b100, 100, kb b100, defM⟩ [t0, t100]
        else
          finishSearch fmt enc logf target thr defM [t0, t100] [qInit, 100]
      else
        finishSearch fmt enc logf target thr defM [t0] [qInit]

/-- The plain return value of `compress_image`. -/
def compress_image (fmt : Fmt) (pngPayload : Nat) (enc : Int → Int → Nat)
    (logf : ℚ → ℚ) (target : ℚ) (initialQuality : Int) (defM : Int)
    (thr : ℚ) : CompressResult :=
  (compressFull fmt pngPayload enc logf target initialQuality defM thr).result

/-- The scale-condition evaluation of `compress_image` (lines 134–155),
returning whether scaling applies.  `hasSettings` models
`scale_settings` being present. -/
def applyScale (hasSettings : Bool) (mode condition condLogic : String)
    (condW condH width height : Int) : Bool :=
  if hasSettings = true ∧ mode ≠ "Off" then
    if condition ≠ "On" then true
    else
      let wActive := decide (condW > 0)
      let hActive := decide (condH > 0)
      let wMet := decide (width > condW)
      let hMet := decide (height > condH)
      if condLogic = "OR (Any condition met)" then
        (wActive && wMet) || (hActive && hMet)
      else if condLogic = "AND (All conditions met)" then
        (!wActive || wMet) && (!hActive || hMet) && (wActive || hActive)
      else false
  else false

/-- Defaults of `AppConfig` (`src/config.py`) relevant to the search. -/
structure AppConfig where
  target_file_size_kb : Int := 200
  webp_method : Int := 6
  method_tuning_threshold : Int := 95

/-- An `AppConfig()` with all defaults. -/
def defaultConfig : AppConfig := {}

/-- What happens when the batch loop of `process_images` (lines 436–542)
works on one file. -/
inductive FileEvent
  | success
  | failure (msg : String)
  | skipReq
  | stopReq
  deriving DecidableEq

/-- The per-file iteration of `process_images`: a stop request logs and breaks
the loop; a skip request and a processing error each log and continue with the
next file. -/
def batchLoop : List (String × FileEvent) → List String
  | [] => []
  | (name, ev) :: rest =>
    match ev with
    | .stopReq => ["Stopped by user"]
    | .skipReq => ("Skipped by user: " ++ name) :: batchLoop rest
    | .failure msg =>
      ("  Error processing " ++ name ++ ": " ++ msg) :: batchLoop rest
    | .success => ("Processing: " ++ name) :: batchLoop rest

/-- The function `process_images` boiled down to what the claims concern: the log lines of the
batch loop together with the returned record
`{"processed": num_images, "skipped": 0}` (line 547), where `num_images` is
the number of discovered files. -/
def process_images (files : List (String × FileEvent)) :
    List String × Nat × Nat :=
  (batchLoop files, files.length, 0)

/-! ### Basic lemmas -/

theorem pyFloor_eq_floor (q : ℚ) : pyFloor q = ⌊q⌋ := Rat.floor_def.symm

theorem one_le_pyFloor {q : ℚ} (h : 1 ≤ q) : 1 ≤ pyFloor q := by
  rw [pyFloor_eq_floor]
  exact Int.le_floor.mpr (by exact_mod_cast h)

theorem clampQ_bounds (q : Int) : 1 ≤ clampQ q ∧ clampQ q ≤ 100 := by
  unfold clampQ; omega

theorem kb_mono {a b : Nat} (h : a ≤ b) : kb a ≤ kb b := by
  unfold kb
  have hc : (a : ℚ) ≤ (b : ℚ) := by exact_mod_cast h
  have : (0 : ℚ) ≤ 1024 := by norm_num
  exact div_le_div_of_nonneg_right hc (by norm_num) |>.trans_eq rfl

/-! ### Selection-scan lemmas -/

theorem lowerStep_cases (target : ℚ) (acc : Option EncodeTrial)
    (x : EncodeTrial) :
    lowerStep target acc x = acc ∨ lowerStep target acc x = some x := by
  rcases acc with _ | a <;> by_cases hc : x.sizeKB ≤ target <;>
    simp [lowerStep, hc]
  by_cases hq : x.quality > a.quality <;> simp [hq]

theorem higherStep_cases (target : ℚ) (acc : Option EncodeTrial)
    (x : EncodeTrial) :
    higherStep target acc x = acc ∨ higherStep target acc x = some x := by
  rcases acc with _ | a <;> by_cases hc : x.sizeKB > target <;>
    simp [higherStep, hc]
  by_cases hq : x.quality < a.quality <;> simp [hq]

theorem bestUnderStep_cases (target : ℚ) (acc : Option EncodeTrial)
    (x : EncodeTrial) :
    bestUnderStep target acc x = acc ∨ bestUnderStep target acc x = some x := by
  rcases acc with _ | a <;> by_cases hc : x.sizeKB ≤ target <;>
    simp [bestUnderStep, hc]
  by_cases hq : x.sizeKB > a.sizeKB <;> simp [hq]

theorem foldl_pick_mem (f : Option EncodeTrial → EncodeTrial → Option EncodeTrial)
    (hf : ∀ acc x, f acc x = acc ∨ f acc x = some x) :
    ∀ (h : List EncodeTrial) (acc : Option EncodeTrial) (b : EncodeTrial),
      h.foldl f acc = some b → b ∈ h ∨ acc = some b := by
  intro h
  induction h with
  | nil => intro acc b hb; exact Or.inr hb
  | cons x xs ih =>
    intro acc b hb
    rcases ih (f acc x) b hb with hmem | hacc
    · exact Or.inl (List.mem_cons_of_mem _ hmem)
    · rcases hf acc x with h1 | h1
      · rw [h1] at hacc; exact Or.inr hacc
      · rw [h1] at hacc
        exact Or.inl ((Option.some.inj hacc) ▸ List.mem_cons_self x xs)

theorem lower_bound_mem {target : ℚ} {h : List EncodeTrial} {b : EncodeTrial}
    (hb : lower_bound target h = some b) : b ∈ h := by
  rcases foldl_pick_mem (lowerStep target) (lowerStep_cases target) h none b hb
    with hm | hm
  · exact hm
  · cases hm

theorem higher_bound_mem {target : ℚ} {h : List EncodeTrial} {b : EncodeTrial}
    (hb : higher_bound target h = some b) : b ∈ h := by
  rcases foldl_pick_mem (higherStep target) (higherStep_cases target) h none b hb
    with hm | hm
  · exact hm
  · cases hm

theorem best_under_go (target : ℚ) :
    ∀ (h : List EncodeTrial) (acc : Option EncodeTrial),
      (h.foldl (bestUnderStep target) acc = none →
        acc = none ∧ ∀ x ∈ h, ¬ x.sizeKB ≤ target) ∧
      (∀ b, h.foldl (bestUnderStep target) acc = some b →
        ((b ∈ h ∧ b.sizeKB ≤ target) ∨ acc = some b) ∧
        (∀ x ∈ h, x.sizeKB ≤ target → x.sizeKB ≤ b.sizeKB) ∧
        (∀ a, acc = some a → a.sizeKB ≤ b.sizeKB)) := by
  intro h
  induction h with
  | nil =>
    intro acc
    refine ⟨fun he => ⟨he, by simp⟩, fun b hb => ⟨Or.inr hb, by simp, ?_⟩⟩
    intro a ha
    simp only [List.foldl_nil] at hb
    rw [hb] at ha
    exact le_of_eq (congrArg EncodeTrial.sizeKB (Option.some.inj ha.symm))
  | cons x xs ih =>
    intro acc
    have hstep := ih (bestUnderStep target acc x)
    constructor
    · intro he
      simp only [List.foldl_cons] at he
      obtain ⟨h1, h2⟩ := hstep.1 he
      by_cases hc : x.sizeKB ≤ target
      · exfalso
        rcases acc with _ | a <;> simp [bestUnderStep, hc] at h1
        by_cases hq : x.sizeKB > a.sizeKB <;> simp [hq] at h1
      · have hacc : acc = none := by
          rcases acc with _ | a
          · rfl
          · simp [bestUnderStep, hc] at h1
        refine ⟨hacc, ?_⟩
        intro y hy
        rcases List.mem_cons.mp hy with rfl | hy
        · exact hc
        · exact h2 y hy
    · intro b hb
      simp only [List.foldl_cons] at hb
      obtain ⟨hmem, hall, hprev⟩ := hstep.2 b hb
      by_cases hc : x.sizeKB ≤ target
      · have hxb : x.sizeKB ≤ b.sizeKB := by
          rcases acc with _ | a
          · exact hprev x (by simp [bestUnderStep, hc])
          · by_cases hq : x.sizeKB > a.sizeKB
            · exact hprev x (by simp [bestUnderStep, hc, hq])
            · have := hprev a (by simp [bestUnderStep, hc, hq])
              exact le_trans (not_lt.mp hq) this
        refine ⟨?_, ?_, ?_⟩
        · rcases hmem with ⟨hbm, hble⟩ | heq
          · exact Or.inl ⟨List.mem_cons_of_mem _ hbm, hble⟩
          · rcases acc with _ | a
            · simp [bestUnderStep, hc] at heq
              exact Or.inl ⟨heq ▸ List.mem_cons_self x xs, heq ▸ hc⟩
            · by_cases hq : x.sizeKB > a.sizeKB
              · simp [bestUnderStep, hc, hq] at heq
                exact Or.inl ⟨heq ▸ List.mem_cons_self x xs, heq ▸ hc⟩
              · simp [bestUnderStep, hc, hq] at heq
                exact Or.inr (by rw [heq])
        · intro y hy hyle
          rcases List.mem_cons.mp hy with rfl | hy
          · exact hxb
          · exact hall y hy hyle
        · intro a ha
          subst ha
          by_cases hq : x.sizeKB > a.sizeKB
          · exact le_trans (le_of_lt hq) hxb
          · exact hprev a (by simp [bestUnderStep, hc, hq])
      · have hstepacc : bestUnderStep target acc x = acc := by
          simp [bestUnderStep, hc]
        rw [hstepacc] at hmem hprev
        refine ⟨?_, ?_, hprev⟩
        · rcases hmem with ⟨hbm, hble⟩ | heq
          · exact Or.inl ⟨List.mem_cons_of_mem _ hbm, hble⟩
          · exact Or.inr heq
        · intro y hy hyle
          rcases List.mem_cons.mp hy with rfl | hy
          · exact absurd hyle hc
          · exact hall y hy hyle

theorem best_under_none {target : ℚ} {h : List EncodeTrial}
    (he : best_under target h = none) : ∀ x ∈ h, ¬ x.sizeKB ≤ target :=
  ((best_under_go target h none).1 he).2

theorem best_under_some {target : ℚ} {h : List EncodeTrial} {b : EncodeTrial}
    (hb : best_under target h = some b) :
    b ∈ h ∧ b.sizeKB ≤ target ∧
      ∀ x ∈ h, x.sizeKB ≤ target → x.sizeKB ≤ b.sizeKB := by
  obtain ⟨hm, hall, _⟩ := (best_under_go target h none).2 b hb
  rcases hm with ⟨h1, h2⟩ | h1
  · exact ⟨h1, h2, hall⟩
  · cases h1

theorem minBySize_spec :
    ∀ (l : List EncodeTrial) (a : EncodeTrial),
      (minBySize a l = a ∨ minBySize a l ∈ l) ∧
      (minBySize a l).sizeKB ≤ a.sizeKB ∧
      ∀ x ∈ l, (minBySize a l).sizeKB ≤ x.sizeKB := by
  intro l
  induction l with
  | nil => intro a; simp [minBySize]
  | cons t ts ih =>
    intro a
    simp only [minBySize]
    by_cases hc : t.sizeKB < a.sizeKB
    · rw [if_pos hc]
      obtain ⟨hm, hle, hall⟩ := ih t
      refine ⟨?_, le_trans hle (le_of_lt hc), ?_⟩
      · rcases hm with hm | hm
        · exact Or.inr (by rw [hm]; exact List.mem_cons_self t ts)
        · exact Or.inr (List.mem_cons_of_mem _ hm)
      · intro x hx
        rcases List.mem_cons.mp hx with rfl | hx
        · exact hle
        · exact hall x hx
    · rw [if_neg hc]
      obtain ⟨hm, hle, hall⟩ := ih a
      refine ⟨?_, hle, ?_⟩
      · rcases hm with hm | hm
        · exact Or.inl hm
        · exact Or.inr (List.mem_cons_of_mem _ hm)
      · intro x hx
        rcases List.mem_cons.mp hx with rfl | hx
        · exact le_trans hle (not_lt.mp hc)
        · exact hall x hx

/-! ### Converge-loop lemmas -/

theorem decideProbe_eq_some {tried : List Int} {lower higher : Option EncodeTrial}
    {nq0 nq : Int} (h : decideProbe tried lower higher nq0 = some nq) :
    nq ∉ tried ∧ (nq = nq0 ∨ ∃ lb hb, lower = some lb ∧ higher = some hb ∧
      nq = (lb.quality + hb.quality) / 2) := by
  unfold decideProbe at h
  by_cases h0 : nq0 ∈ tried
  · rw [if_pos h0] at h
    rcases lower with _ | lb <;> rcases higher with _ | hb <;> simp at h
    by_cases hm : (lb.quality + hb.quality) / 2 ∈ tried
    · simp [hm] at h
    · simp [hm] at h
      subst h
      exact ⟨hm, Or.inr ⟨lb, hb, rfl, rfl, rfl⟩⟩
  · rw [if_neg h0] at h
    have : nq0 = nq := Option.some.inj h
    subst this
    exact ⟨h0, Or.inl rfl⟩

theorem chooseNext_bounds {logf : ℚ → ℚ} {target step : ℚ}
    {lower higher : Option EncodeTrial} (hs : 1 ≤ step)
    (hl : ∀ lb, lower = some lb → 1 ≤ lb.quality ∧ lb.quality ≤ 100)
    (hh : ∀ hb, higher = some hb → 1 ≤ hb.quality ∧ hb.quality ≤ 100) :
    1 ≤ chooseNext logf target step lower higher ∧
      chooseNext logf target step lower higher ≤ 100 := by
  have hf := one_le_pyFloor hs
  rcases lower with _ | lb <;> rcases higher with _ | hb
  · simp only [chooseNext]
    constructor <;> decide
  · have := hh hb rfl
    simp only [chooseNext]
    omega
  · have := hl lb rfl
    simp only [chooseNext]
    omega
  · simp only [chooseNext]
    exact clampQ_bounds _

theorem searchLoop_extend (enc : Int → Int → Nat) (logf : ℚ → ℚ) (target : ℚ)
    (defM : Int) :
    ∀ (fuel : Nat) (step : ℚ) (h : List EncodeTrial) (tried : List Int),
      ∃ ext, searchLoop enc logf target defM fuel step h tried = h ++ ext := by
  intro fuel
  induction fuel with
  | zero => intro step h tried; exact ⟨[], by simp [searchLoop]⟩
  | succ n ih =>
    intro step h tried
    by_cases hs : step < 1
    · exact ⟨[], by simp [searchLoop, hs]⟩
    · cases hbc : bracketClosed (lower_bound target h) (higher_bound target h) with
      | true => exact ⟨[], by simp [searchLoop, hs, hbc]⟩
      | false =>
        cases hdp : decideProbe tried (lower_bound target h) (higher_bound target h)
            (chooseNext logf target step (lower_bound target h)
              (higher_bound target h)) with
        | none =>
          obtain ⟨ext, hext⟩ := ih (step / 2) h tried
          refine ⟨ext, ?_⟩
          simp only [searchLoop]
          rw [if_neg hs]
          simp only [hbc, Bool.false_eq_true, if_false, hdp]
          exact hext
        | some nq =>
          obtain ⟨ext, hext⟩ := ih
            (if |kb (enc nq defM) - target| < target * (10 / 100) then (1 : ℚ)
              else max 1 (step / 2))
            (h ++ [⟨nq, kb (enc nq defM), enc nq defM⟩]) (tried ++ [nq])
          refine ⟨⟨nq, kb (enc nq defM), enc nq defM⟩ :: ext, ?_⟩
          simp only [searchLoop]
          rw [if_neg hs]
          simp only [hbc, Bool.false_eq_true, if_false, hdp]
          rw [hext, List.append_assoc]
          rfl

theorem searchLoop_length (enc : Int → Int → Nat) (logf : ℚ → ℚ) (target : ℚ)
    (defM : Int) :
    ∀ (fuel : Nat) (step : ℚ) (h : List EncodeTrial) (tried : List Int),
      (searchLoop enc logf target defM fuel step h tried).length ≤
        h.length + fuel := by
  intro fuel
  induction fuel with
  | zero => intro step h tried; simp [searchLoop]
  | succ n ih =>
    intro step h tried
    by_cases hs : step < 1
    · simp [searchLoop, hs]
    · cases hbc : bracketClosed (lower_bound target h) (higher_bound target h) with
      | true => simp [searchLoop, hs, hbc]
      | false =>
        cases hdp : decideProbe tried (lower_bound target h) (higher_bound target h)
            (chooseNext logf target step (lower_bound target h)
              (higher_bound target h)) with
        | none =>
          have := ih (step / 2) h tried
          simp only [searchLoop]
          rw [if_neg hs]
          simp only [hbc, Bool.false_eq_true, if_false, hdp]
          omega
        | some nq =>
          have := ih
            (if |kb (enc nq defM) - target| < target * (10 / 100) then (1 : ℚ)
              else max 1 (step / 2))
            (h ++ [⟨nq, kb (enc nq defM), enc nq defM⟩]) (tried ++ [nq])
          simp only [searchLoop]
          rw [if_neg hs]
          simp only [hbc, Bool.false_eq_true, if_false, hdp]
          simp only [List.length_append, List.length_cons, List.length_nil] at this ⊢
          omega

theorem searchLoop_inv (enc : Int → Int → Nat) (logf : ℚ → ℚ) (target : ℚ)
    (defM : Int) :
    ∀ (fuel : Nat) (step : ℚ) (h : List EncodeTrial) (tried : List Int),
      tried = h.map EncodeTrial.quality →
      tried.Nodup →
      (∀ x ∈ h, 1 ≤ x.quality ∧ x.quality ≤ 100) →
      ((searchLoop enc logf target defM fuel step h tried).map
        EncodeTrial.quality).Nodup ∧
      ∀ x ∈ searchLoop enc logf target defM fuel step h tried,
        1 ≤ x.quality ∧ x.quality ≤ 100 := by
  intro fuel
  induction fuel with
  | zero =>
    intro step h tried ht hn hb
    subst ht
    exact ⟨by simpa using hn, by simpa using hb⟩
  | succ n ih =>
    intro step h tried ht hn hb
    by_cases hs : step < 1
    · subst ht
      refine ⟨?_, ?_⟩ <;> simp only [searchLoop, if_pos hs]
      · exact hn
      · exact hb
    · cases hbc : bracketClosed (lower_bound target h) (higher_bound target h) with
      | true =>
        subst ht
        constructor <;>
          · simp only [searchLoop]
            rw [if_neg hs]
            simp only [hbc, Bool.false_eq_true, if_false]
            first
              | exact hn
              | exact hb
      | false =>
        cases hdp : decideProbe tried (lower_bound target h) (higher_bound target h)
            (chooseNext logf target step (lower_bound target h)
              (higher_bound target h)) with
        | none =>
          have := ih (step / 2) h tried ht hn hb
          constructor <;>
            · simp only [searchLoop]
              rw [if_neg hs]
              simp only [hbc, Bool.false_eq_true, if_false, hdp]
              first
                | exact this.1
                | exact this.2
        | some nq =>
          obtain ⟨hnot, hform⟩ := decideProbe_eq_some hdp
          have hnq : 1 ≤ nq ∧ nq ≤ 100 := by
            rcases hform with rfl | ⟨lb, hb2, hlb, hhb, rfl⟩
            · refine chooseNext_bounds (not_lt.mp hs) ?_ ?_
              · intro lb hlb
                exact hb lb (lower_bound_mem hlb)
              · intro hb2 hhb
                exact hb hb2 (higher_bound_mem hhb)
            · have h1 := hb lb (lower_bound_mem hlb)
              have h2 := hb hb2 (higher_bound_mem hhb)
              omega
          have hmap : tried ++ [nq] =
              (h ++ [(⟨nq, kb (enc nq defM), enc nq defM⟩ : EncodeTrial)]).map
                EncodeTrial.quality := by
            simp [ht]
          have hnodup : (tried ++ [nq]).Nodup := by
            rw [List.nodup_append]
            exact ⟨hn, List.nodup_singleton nq,
              fun a ha hmem => hnot ((List.mem_singleton.mp hmem) ▸ ha)⟩
          have hbnd : ∀ x ∈ h ++ [(⟨nq, kb (enc nq defM), enc nq defM⟩ : EncodeTrial)],
              1 ≤ x.quality ∧ x.quality ≤ 100 := by
            intro x hx
            rcases List.mem_append.mp hx with hx | hx
            · exact hb x hx
            · simp at hx
              subst hx
              exact hnq
          have := ih
            (if |kb (enc nq defM) - target| < target * (10 / 100) then (1 : ℚ)
              else max 1 (step / 2))
            (h ++ [⟨nq, kb (enc nq defM), enc nq defM⟩]) (tried ++ [nq])
            hmap hnodup hbnd
          constructor <;>
            · simp only [searchLoop]
              rw [if_neg hs]
              simp only [hbc, Bool.false_eq_true, if_false, hdp]
              first
                | exact this.1
                | exact this.2

theorem searchLoop_sizes (enc : Int → Int → Nat) (logf : ℚ → ℚ) (target : ℚ)
    (defM : Int) :
    ∀ (fuel : Nat) (step : ℚ) (h : List EncodeTrial) (tried : List Int),
      (∀ x ∈ h, x.sizeKB = kb x.payload) →
      ∀ x ∈ searchLoop enc logf target defM fuel step h tried,
        x.sizeKB = kb x.payload := by
  intro fuel
  induction fuel with
  | zero =>
    intro step h tried hsz
    simpa [searchLoop] using hsz
  | succ n ih =>
    intro step h tried hsz
    by_cases hs : step < 1
    · simpa [searchLoop, hs] using hsz
    · cases hbc : bracketClosed (lower_bound target h) (higher_bound target h) with
      | true =>
        simp only [searchLoop]
        rw [if_neg hs]
        simpa [hbc] using hsz
      | false =>
        cases hdp : decideProbe tried (lower_bound target h) (higher_bound target h)
            (chooseNext logf target step (lower_bound target h)
              (higher_bound target h)) with
        | none =>
          simp only [searchLoop]
          rw [if_neg hs]
          simp only [hbc, Bool.false_eq_true, if_false, hdp]
          exact ih (step / 2) h tried hsz
        | some nq =>
          simp only [searchLoop]
          rw [if_neg hs]
          simp only [hbc, Bool.false_eq_true, if_false, hdp]
          refine ih _ _ _ ?_
          intro x hx
          rcases List.mem_append.mp hx with hx | hx
          · exact hsz x hx
          · simp at hx
            subst hx
            rfl

/-! ### Method-tuning lemmas -/

theorem tuningLoop_size (enc : Int → Int → Nat) (target : ℚ) (q : Int) :
    ∀ (ms : List Int) (bs : ℚ) (bb : Nat) (bm : Int), bs ≤ target →
      bs ≤ (tuningLoop enc target q ms (bs, bb, bm)).1 ∧
      (tuningLoop enc target q ms (bs, bb, bm)).1 ≤ target := by
  intro ms
  induction ms with
  | nil => intro bs bb bm h; exact ⟨le_refl _, h⟩
  | cons m ms ih =>
    intro bs bb bm h
    simp only [tuningLoop]
    by_cases h1 : kb (enc q m) ≤ target
    · rw [if_pos h1]
      by_cases h2 : kb (enc q m) > bs
      · rw [if_pos h2]
        have := ih (kb (enc q m)) (enc q m) m h1
        exact ⟨le_trans (le_of_lt h2) this.1, this.2⟩
      · rw [if_neg h2]
        exact ih bs bb bm h
    · rw [if_neg h1]
      exact ⟨le_refl _, h⟩

theorem tuningLoop_kb (enc : Int → Int → Nat) (target : ℚ) (q : Int) :
    ∀ (ms : List Int) (bs : ℚ) (bb : Nat) (bm : Int), bs = kb bb →
      (tuningLoop enc target q ms (bs, bb, bm)).1 =
        kb (tuningLoop enc target q ms (bs, bb, bm)).2.1 := by
  intro ms
  induction ms with
  | nil => intro bs bb bm h; exact h
  | cons m ms ih =>
    intro bs bb bm h
    simp only [tuningLoop]
    by_cases h1 : kb (enc q m) ≤ target
    · rw [if_pos h1]
      by_cases h2 : kb (enc q m) > bs
      · rw [if_pos h2]
        exact ih (kb (enc q m)) (enc q m) m rfl
      · rw [if_neg h2]
        exact ih bs bb bm h
    · rw [if_neg h1]
      exact h

theorem methodTuning_quality (fmt : Fmt) (enc : Int → Int → Nat)
    (target thr : ℚ) (defM : Int) (chosen : EncodeTrial) :
    (methodTuning fmt enc target thr defM chosen).quality = chosen.quality := by
  unfold methodTuning
  split <;> rfl

theorem methodTuning_size_bounds (fmt : Fmt) (enc : Int → Int → Nat)
    (target thr : ℚ) (defM : Int) (chosen : EncodeTrial)
    (hle : chosen.sizeKB ≤ target) :
    chosen.sizeKB ≤ (methodTuning fmt enc target thr defM chosen).sizeKB ∧
      (methodTuning fmt enc target thr defM chosen).sizeKB ≤ target := by
  unfold methodTuning
  split
  · exact tuningLoop_size enc target chosen.quality (methodRange defM)
      chosen.sizeKB chosen.payload defM hle
  · exact ⟨le_refl _, hle⟩

theorem methodTuning_kb (fmt : Fmt) (enc : Int → Int → Nat)
    (target thr : ℚ) (defM : Int) (chosen : EncodeTrial)
    (hc : chosen.sizeKB = kb chosen.payload) :
    (methodTuning fmt enc target thr defM chosen).sizeKB =
      kb (methodTuning fmt enc target thr defM chosen).payload := by
  unfold methodTuning
  split
  · exact tuningLoop_kb enc target chosen.quality (methodRange defM)
      chosen.sizeKB chosen.payload defM hc
  · exact hc

/-! ### finishSearch lemmas -/

theorem finishSearch_probeCount (fmt : Fmt) (enc : Int → Int → Nat)
    (logf : ℚ → ℚ) (target thr : ℚ) (defM : Int)
    (h : List EncodeTrial) (tried : List Int) :
    (finishSearch fmt enc logf target thr defM h tried).probeCount ≤
      h.length + (11 - tried.length) := by
  have hlen := searchLoop_length enc logf target defM (11 - tried.length) 50 h tried
  unfold finishSearch
  rcases hbu : best_under target
      (searchLoop enc logf target defM (11 - tried.length) 50 h tried)
    with _ | chosen
  · rcases hfh : searchLoop enc logf target defM (11 - tried.length) 50 h tried
      with _ | ⟨t, ts⟩
    · rw [hfh] at hbu
      simp only [hfh, hbu, Outcome.probeCount, List.length_nil]
      exact Nat.zero_le _
    · rw [hfh] at hbu hlen
      simp only [hfh, hbu, Outcome.probeCount]
      exact hlen
  · simp only [hbu, Outcome.probeCount]
    exact hlen

theorem finishSearch_inv (fmt : Fmt) (enc : Int → Int → Nat) (logf : ℚ → ℚ)
    (target thr : ℚ) (defM : Int) (h : List EncodeTrial) (tried : List Int)
    (ht : tried = h.map EncodeTrial.quality) (hn : tried.Nodup)
    (hbnd : ∀ x ∈ h, 1 ≤ x.quality ∧ x.quality ≤ 100) :
    (((finishSearch fmt enc logf target thr defM h tried).searchHistory).map
      EncodeTrial.quality).Nodup ∧
    ∀ x ∈ (finishSearch fmt enc logf target thr defM h tried).searchHistory,
      1 ≤ x.quality ∧ x.quality ≤ 100 := by
  have hinv := searchLoop_inv enc logf target defM (11 - tried.length) 50 h tried
    ht hn hbnd
  unfold finishSearch
  rcases hbu : best_under target
      (searchLoop enc logf target defM (11 - tried.length) 50 h tried)
    with _ | chosen
  · rcases hfh : searchLoop enc logf target defM (11 - tried.length) 50 h tried
      with _ | ⟨t, ts⟩
    · rw [hfh] at hbu
      simp only [hfh, hbu, Outcome.searchHistory]
      simp
    · rw [hfh] at hbu hinv
      simp only [hfh, hbu, Outcome.searchHistory]
      exact hinv
  · simp only [hbu, Outcome.searchHistory]
    exact hinv

theorem finishSearch_selection (fmt : Fmt) (enc : Int → Int → Nat)
    (logf : ℚ → ℚ) (target thr : ℚ) (defM : Int)
    (h : List EncodeTrial) (tried : List Int) (hne : h ≠ []) :
    match finishSearch fmt enc logf target thr defM h tried with
    | Outcome.allOver r fh =>
        (∀ x ∈ fh, target < x.sizeKB) ∧
        ∃ m ∈ fh, r = ⟨m.payload, m.quality, m.sizeKB, defM⟩ ∧
          ∀ x ∈ fh, m.sizeKB ≤ x.sizeKB
    | Outcome.selected chosen r fh =>
        chosen ∈ fh ∧ chosen.sizeKB ≤ target ∧
        (∀ x ∈ fh, x.sizeKB ≤ target → x.sizeKB ≤ chosen.sizeKB) ∧
        r.quality = chosen.quality ∧ chosen.sizeKB ≤ r.sizeKB ∧
        r.sizeKB ≤ target
    | _ => True := by
  obtain ⟨ext, hext⟩ := searchLoop_extend enc logf target defM
    (11 - tried.length) 50 h tried
  unfold finishSearch
  rcases hbu : best_under target
      (searchLoop enc logf target defM (11 - tried.length) 50 h tried)
    with _ | chosen
  · have hnone := best_under_none hbu
    rcases hfh : searchLoop enc logf target defM (11 - tried.length) 50 h tried
      with _ | ⟨t, ts⟩
    · exfalso
      rw [hfh] at hext
      exact hne (List.append_eq_nil.mp hext.symm).1
    · rw [hfh] at hbu hnone
      simp only [hfh, hbu]
      obtain ⟨hm, hle, hall⟩ := minBySize_spec ts t
      constructor
      · intro x hx
        exact not_le.mp (hnone x hx)
      · refine ⟨minBySize t ts, ?_, rfl, ?_⟩
        · rcases hm with hm | hm
          · rw [hm]; exact List.mem_cons_self t ts
          · exact List.mem_cons_of_mem _ hm
        · intro x hx
          rcases List.mem_cons.mp hx with rfl | hx
          · exact hle
          · exact hall x hx
  · have hsome := best_under_some hbu
    simp only [hbu]
    have hbnds := methodTuning_size_bounds fmt enc target thr defM chosen
      hsome.2.1
    exact ⟨hsome.1, hsome.2.1, hsome.2.2,
      methodTuning_quality fmt enc target thr defM chosen, hbnds.1, hbnds.2⟩

theorem finishSearch_kb (fmt : Fmt) (enc : Int → Int → Nat) (logf : ℚ → ℚ)
    (target thr : ℚ) (defM : Int) (h : List EncodeTrial) (tried : List Int)
    (hsz : ∀ x ∈ h, x.sizeKB = kb x.payload) :
    (finishSearch fmt enc logf target thr defM h tried).result.sizeKB =
      kb (finishSearch fmt enc logf target thr defM h tried).result.payload := by
  have hfs := searchLoop_sizes enc logf target defM (11 - tried.length) 50 h tried hsz
  unfold finishSearch
  rcases hbu : best_under target
      (searchLoop enc logf target defM (11 - tried.length) 50 h tried)
    with _ | chosen
  · rcases hfh : searchLoop enc logf target defM (11 - tried.length) 50 h tried
      with _ | ⟨t, ts⟩
    · rw [hfh] at hbu
      simp only [hfh, hbu, Outcome.result]
      simp [kb]
    · rw [hfh] at hbu hfs
      simp only [hfh, hbu, Outcome.result]
      obtain ⟨hm, _, _⟩ := minBySize_spec ts t
      refine hfs (minBySize t ts) ?_
      rcases hm with hm | hm
      · rw [hm]; exact List.mem_cons_self t ts
      · exact List.mem_cons_of_mem _ hm
  · simp only [hbu, Outcome.result]
    exact methodTuning_kb fmt enc target thr defM chosen
      (hfs chosen (best_under_some hbu).1)

/-! ### Claim C3: degenerate interpolation guard -/

/-- C3: for every pair of bracket trials with equal sizes (`S_low == S_high`)
and any target, `interpolate_quality` takes the guard branch — no division is
evaluated — and returns `Q_low` unchanged, for every interpretation of
`math.log`. -/
theorem interpolate_degenerate_guard (logf : ℚ → ℚ)
    (qLow sLow qHigh sHigh sTarget : ℚ) (h : sHigh = sLow) :
    interpolate_quality logf qLow sLow qHigh sHigh sTarget = qLow := by
  unfold interpolate_quality
  rw [if_pos h]

theorem interpolate_degenerate_guard_witness :
    interpolate_quality id 10 50 80 50 200 = 10 :=
  interpolate_degenerate_guard id 10 50 80 50 200 rfl

/-! ### Claim C6: AND scale-condition logic -/

/-- C6: under `AND` logic with the condition feature enabled, scaling applies
iff every active condition (threshold > 0) is met (dimension strictly exceeds
the threshold) and at least one condition is active; in particular a 4000×2000
image with thresholds 3000/3000 does not get scaled. -/
theorem scale_condition_and_spec :
    (∀ (mode : String) (condW condH width height : Int), mode ≠ "Off" →
      (applyScale true mode "On" "AND (All conditions met)"
          condW condH width height = true ↔
        ((0 < condW → condW < width) ∧ (0 < condH → condH < height) ∧
          (0 < condW ∨ 0 < condH)))) ∧
    applyScale true "By Percentage" "On" "AND (All conditions met)"
      3000 3000 4000 2000 = false := by
  constructor
  · intro mode cw ch w h hm
    unfold applyScale
    rw [if_pos ⟨rfl, hm⟩, if_neg (by simp)]
    rw [if_neg (by decide), if_pos rfl]
    simp only [Bool.and_eq_true, Bool.or_eq_true, Bool.not_eq_true',
      decide_eq_true_eq, decide_eq_false_iff_not]
    constructor
    · rintro ⟨⟨hw, hh⟩, hor⟩
      refine ⟨?_, ?_, ?_⟩
      · intro h1
        rcases hw with hw | hw
        · exact absurd h1 hw
        · exact hw
      · intro h1
        rcases hh with hh | hh
        · exact absurd h1 hh
        · exact hh
      · rcases hor with h1 | h1
        · exact Or.inl h1
        · exact Or.inr h1
    · rintro ⟨hw, hh, hor⟩
      refine ⟨⟨?_, ?_⟩, ?_⟩
      · by_cases h1 : 0 < cw
        · exact Or.inr (hw h1)
        · exact Or.inl h1
      · by_cases h1 : 0 < ch
        · exact Or.inr (hh h1)
        · exact Or.inl h1
      · rcases hor with h1 | h1
        · exact Or.inl h1
        · exact Or.inr h1
  · decide

theorem scale_condition_and_spec_witness :
    (applyScale true "By Percentage" "On" "AND (All conditions met)"
        0 3000 4000 5000 = true) ∧
    (applyScale true "By Percentage" "On" "AND (All conditions met)"
        3000 3000 4000 2000 = false) :=
  ⟨(scale_condition_and_spec.1 "By Percentage" 0 3000 4000 5000
      (by decide)).mpr (by refine ⟨?_, ?_, ?_⟩ <;> omega),
    scale_condition_and_spec.2⟩

/-! ### Claim C8 (corrected): per-file errors and the batch record -/

/-- C8 counterexample: a batch whose single file errors still returns
`processed = 1` (the total number of discovered files), not `0`, so the
errored file IS counted as processed, contrary to the claim. -/
theorem run_batch_counts_errored_file :
    process_images [("a.jpg", FileEvent.failure "boom")] =
      (["  Error processing a.jpg: boom"], 1, 0) ∧ (1 : Nat) ≠ 0 :=
  ⟨rfl, by decide⟩

/-- C8 amended: a per-file error is caught and logged with the filename and
cause, the remaining files are still processed, but the returned record counts
every discovered file as processed (`processed = number of discovered files`)
and always reports `skipped = 0`; the errored file is therefore included in
`processed` rather than excluded from both counters. -/
theorem per_file_error_logged_and_counted :
    ∀ (pre : List (String × FileEvent)) (name msg : String)
      (rest : List (String × FileEvent)),
      (∀ p ∈ pre, p.2 ≠ FileEvent.stopReq) →
      batchLoop (pre ++ (name, FileEvent.failure msg) :: rest) =
        batchLoop pre ++
          ("  Error processing " ++ name ++ ": " ++ msg) :: batchLoop rest ∧
      (process_images (pre ++ (name, FileEvent.failure msg) :: rest)).2.1 =
        pre.length + 1 + rest.length ∧
      (process_images (pre ++ (name, FileEvent.failure msg) :: rest)).2.2 = 0 := by
  intro pre name msg rest hpre
  refine ⟨?_, ?_, rfl⟩
  · induction pre with
    | nil => simp [batchLoop]
    | cons p ps ih =>
      obtain ⟨n0, e0⟩ := p
      have he0 : e0 ≠ FileEvent.stopReq := hpre (n0, e0) (List.mem_cons_self _ _)
      have ihs : batchLoop (ps ++ (name, FileEvent.failure msg) :: rest) =
          batchLoop ps ++
            ("  Error processing " ++ name ++ ": " ++ msg) :: batchLoop rest :=
        ih (fun p hp => hpre p (List.mem_cons_of_mem _ hp))
      cases e0 with
      | stopReq => exact absurd rfl he0
      | success => simp [batchLoop, ihs]
      | failure m0 => simp [batchLoop, ihs]
      | skipReq => simp [batchLoop, ihs]
  · simp [process_images]
    omega

theorem per_file_error_logged_and_counted_witness :
    batchLoop [("ok.png", FileEvent.success), ("b.jpg", FileEvent.failure "io"),
        ("c.png", FileEvent.skipReq)] =
      batchLoop [("ok.png", FileEvent.success)] ++
        ("  Error processing " ++ "b.jpg" ++ ": " ++ "io") ::
          batchLoop [("c.png", FileEvent.skipReq)] ∧
    (process_images [("ok.png", FileEvent.success),
        ("b.jpg", FileEvent.failure "io"),
        ("c.png", FileEvent.skipReq)]).2.1 = 1 + 1 + 1 ∧
    (process_images [("ok.png", FileEvent.success),
        ("b.jpg", FileEvent.failure "io"),
        ("c.png", FileEvent.skipReq)]).2.2 = 0 :=
  per_file_error_logged_and_counted [("ok.png", FileEvent.success)] "b.jpg" "io"
    [("c.png", FileEvent.skipReq)] (by decide)

/-! ### Claim C1: best-under final selection -/

/-- C1: whenever the lossy search reaches the final selection, the selected
trial is in the history, and it is a maximal-size trial among those with
`sizeKB ≤ target` when one exists (`selected` case; the returned tuple keeps
its quality, and method tuning can only move the returned size up towards the
target while staying `≤ target`); otherwise (`allOver` case) the returned
tuple is the first minimal-size trial of the history. -/
theorem final_selection_best_under :
    ∀ (fmt : Fmt) (png : Nat) (enc : Int → Int → Nat) (logf : ℚ → ℚ)
      (target : ℚ) (iq defM : Int) (thr : ℚ),
      match compressFull fmt png enc logf target iq defM thr with
      | Outcome.allOver r fh =>
          (∀ x ∈ fh, target < x.sizeKB) ∧
          ∃ m ∈ fh, r = ⟨m.payload, m.quality, m.sizeKB, defM⟩ ∧
            ∀ x ∈ fh, m.sizeKB ≤ x.sizeKB
      | Outcome.selected chosen r fh =>
          chosen ∈ fh ∧ chosen.sizeKB ≤ target ∧
          (∀ x ∈ fh, x.sizeKB ≤ target → x.sizeKB ≤ chosen.sizeKB) ∧
          r.quality = chosen.quality ∧ chosen.sizeKB ≤ r.sizeKB ∧
          r.sizeKB ≤ target
      | _ => True := by
  intro fmt png enc logf target iq defM thr
  unfold compressFull
  by_cases hp : fmt = Fmt.PNG
  · rw [if_pos hp]; trivial
  · rw [if_neg hp]
    dsimp only
    by_cases h1 : kb (enc (clampQ iq) defM) > target
    · rw [if_pos h1]
      by_cases h2 : clampQ iq ≠ 1
      · rw [if_pos h2]
        by_cases h3 : kb (enc 1 defM) > target
        · rw [if_pos h3]; trivial
        · rw [if_neg h3]
          exact finishSearch_selection fmt enc logf target thr defM _ _ (by simp)
      · rw [if_neg h2]
        exact finishSearch_selection fmt enc logf target thr defM _ _ (by simp)
    · rw [if_neg h1]
      by_cases h2 : clampQ iq ≠ 100
      · rw [if_pos h2]
        by_cases h3 : kb (enc 100 defM) ≤ target
        · rw [if_pos h3]; trivial
        · rw [if_neg h3]
          exact finishSearch_selection fmt enc logf target thr defM _ _ (by simp)
      · rw [if_neg h2]
        exact finishSearch_selection fmt enc logf target thr defM _ _ (by simp)

/-! ### Claim C2: bounded number of probes -/

/-- C2: the quality search of `compress_image` always terminates after at most
12 encode probes (bootstrap, bracket establishment and converge iterations
together; method tuning excluded) — in fact at most 11 — for any target, any
deterministic size function, and any initial quality. -/
theorem bounded_probe_count :
    ∀ (fmt : Fmt) (png : Nat) (enc : Int → Int → Nat) (logf : ℚ → ℚ)
      (target : ℚ) (iq defM : Int) (thr : ℚ),
      (compressFull fmt png enc logf target iq defM thr).probeCount ≤ 12 := by
  intro fmt png enc logf target iq defM thr
  unfold compressFull
  by_cases hp : fmt = Fmt.PNG
  · rw [if_pos hp]
    simp [Outcome.probeCount]
  · rw [if_neg hp]
    dsimp only
    by_cases h1 : kb (enc (clampQ iq) defM) > target
    · rw [if_pos h1]
      by_cases h2 : clampQ iq ≠ 1
      · rw [if_pos h2]
        by_cases h3 : kb (enc 1 defM) > target
        · rw [if_pos h3]
          simp [Outcome.probeCount]
        · rw [if_neg h3]
          refine le_trans (finishSearch_probeCount _ _ _ _ _ _ _ _) ?_
          simp only [List.length_cons, List.length_nil]
          omega
      · rw [if_neg h2]
        refine le_trans (finishSearch_probeCount _ _ _ _ _ _ _ _) ?_
        simp only [List.length_cons, List.length_nil]
        omega
    · rw [if_neg h1]
      by_cases h2 : clampQ iq ≠ 100
      · rw [if_pos h2]
        by_cases h3 : kb (enc 100 defM) ≤ target
        · rw [if_pos h3]
          simp [Outcome.probeCount]
        · rw [if_neg h3]
          refine le_trans (finishSearch_probeCount _ _ _ _ _ _ _ _) ?_
          simp only [List.length_cons, List.length_nil]
          omega
      · rw [if_neg h2]
        refine le_trans (finishSearch_probeCount _ _ _ _ _ _ _ _) ?_
        simp only [List.length_cons, List.length_nil]
        omega

/-! ### Claim C5: no duplicate qualities, qualities in range -/

/-- C5: throughout the lossy quality search no quality is ever probed twice —
the produced history has pairwise-distinct qualities — and every recorded
quality lies in `[1, 100]`. -/
theorem search_history_inv :
    ∀ (fmt : Fmt) (png : Nat) (enc : Int → Int → Nat) (logf : ℚ → ℚ)
      (target : ℚ) (iq defM : Int) (thr : ℚ),
      (((compressFull fmt png enc logf target iq defM thr).searchHistory).map
        EncodeTrial.quality).Nodup ∧
      ∀ x ∈ (compressFull fmt png enc logf target iq defM thr).searchHistory,
        1 ≤ x.quality ∧ x.quality ≤ 100 := by
  intro fmt png enc logf target iq defM thr
  have hq0 := clampQ_bounds iq
  unfold compressFull
  by_cases hp : fmt = Fmt.PNG
  · rw [if_pos hp]
    simp [Outcome.searchHistory]
  · rw [if_neg hp]
    dsimp only
    by_cases h1 : kb (enc (clampQ iq) defM) > target
    · rw [if_pos h1]
      by_cases h2 : clampQ iq ≠ 1
      · rw [if_pos h2]
        by_cases h3 : kb (enc 1 defM) > target
        · rw [if_pos h3]
          constructor
          · simp [Outcome.searchHistory, h2]
          · intro x hx
            simp [Outcome.searchHistory] at hx
            rcases hx with rfl | rfl
            · exact hq0
            · exact ⟨le_refl _, by norm_num⟩
        · rw [if_neg h3]
          refine finishSearch_inv fmt enc logf target thr defM _ _ rfl ?_ ?_
          · simp [h2]
          · intro x hx
            simp at hx
            rcases hx with rfl | rfl
            · exact hq0
            · exact ⟨le_refl _, by norm_num⟩
      · rw [if_neg h2]
        refine finishSearch_inv fmt enc logf target thr defM _ _ rfl ?_ ?_
        · exact List.nodup_singleton _
        · intro x hx
          simp at hx
          subst hx
          exact hq0
    · rw [if_neg h1]
      by_cases h2 : clampQ iq ≠ 100
      · rw [if_pos h2]
        by_cases h3 : kb (enc 100 defM) ≤ target
        · rw [if_pos h3]
          constructor
          · simp [Outcome.searchHistory, h2]
          · intro x hx
            simp [Outcome.searchHistory] at hx
            rcases hx with rfl | rfl
            · exact hq0
            · exact ⟨by norm_num, le_refl _⟩
        · rw [if_neg h3]
          refine finishSearch_inv fmt enc logf target thr defM _ _ rfl ?_ ?_
          · simp [h2]
          · intro x hx
            simp at hx
            rcases hx with rfl | rfl
            · exact hq0
            · exact ⟨by norm_num, le_refl _⟩
      · rw [if_neg h2]
        refine finishSearch_inv fmt enc logf target thr defM _ _ rfl ?_ ?_
        · exact List.nodup_singleton _
        · intro x hx
          simp at hx
          subst hx
          exact hq0

/-! ### Claim C10: the returned size always describes the returned bytes -/

/-- C10: on every successful return path of `compress_image` (lossless, early
bracket returns, unreachable-target return, final selection, after method
tuning), the returned `sizeKB` equals the byte length of the returned payload
divided by 1024. -/
theorem result_size_matches_payload :
    ∀ (fmt : Fmt) (png : Nat) (enc : Int → Int → Nat) (logf : ℚ → ℚ)
      (target : ℚ) (iq defM : Int) (thr : ℚ),
      (compress_image fmt png enc logf target iq defM thr).sizeKB =
        kb (compress_image fmt png enc logf target iq defM thr).payload := by
  intro fmt png enc logf target iq defM thr
  unfold compress_image compressFull
  by_cases hp : fmt = Fmt.PNG
  · rw [if_pos hp]
    rfl
  · rw [if_neg hp]
    dsimp only
    by_cases h1 : kb (enc (clampQ iq) defM) > target
    · rw [if_pos h1]
      by_cases h2 : clampQ iq ≠ 1
      · rw [if_pos h2]
        by_cases h3 : kb (enc 1 defM) > target
        · rw [if_pos h3]
          rfl
        · rw [if_neg h3]
          refine finishSearch_kb fmt enc logf target thr defM _ _ ?_
          intro x hx
          simp at hx
          rcases hx with rfl | rfl <;> rfl
      · rw [if_neg h2]
        refine finishSearch_kb fmt enc logf target thr defM _ _ ?_
        intro x hx
        simp at hx
        subst hx
        rfl
    · rw [if_neg h1]
      by_cases h2 : clampQ iq ≠ 100
      · rw [if_pos h2]
        by_cases h3 : kb (enc 100 defM) ≤ target
        · rw [if_pos h3]
          rfl
        · rw [if_neg h3]
          refine finishSearch_kb fmt enc logf target thr defM _ _ ?_
          intro x hx
          simp at hx
          rcases hx with rfl | rfl <;> rfl
      · rw [if_neg h2]
        refine finishSearch_kb fmt enc logf target thr defM _ _ ?_
        intro x hx
        simp at hx
        subst hx
        rfl

/-! ### Claim C4: unreachable target -/

theorem searchLoop_stuck_low (enc : Int → Int → Nat) (logf : ℚ → ℚ)
    (target : ℚ) (defM : Int) (t1 : EncodeTrial)
    (hq : t1.quality = 1) (hgt : target < t1.sizeKB) :
    ∀ (fuel : Nat) (step : ℚ),
      searchLoop enc logf target defM fuel step [t1] [1] = [t1] := by
  intro fuel
  induction fuel with
  | zero => intro step; simp [searchLoop]
  | succ n ih =>
    intro step
    by_cases hs : step < 1
    · simp [searchLoop, hs]
    · have hlb : lower_bound target [t1] = none := by
        simp [lower_bound, lowerStep, not_le.mpr hgt]
      have hhb : higher_bound target [t1] = some t1 := by
        simp [higher_bound, higherStep, hgt]
      have hcn : chooseNext logf target step (lower_bound target [t1])
          (higher_bound target [t1]) = 1 := by
        rw [hlb, hhb]
        simp only [chooseNext, hq]
        have := one_le_pyFloor (not_lt.mp hs)
        omega
      have hdp : decideProbe [1] (lower_bound target [t1])
          (higher_bound target [t1])
          (chooseNext logf target step (lower_bound target [t1])
            (higher_bound target [t1])) = none := by
        rw [hcn, hlb, hhb]
        simp [decideProbe]
      have hbc : bracketClosed (lower_bound target [t1])
          (higher_bound target [t1]) = false := by
        rw [hlb]
        rfl
      simp only [searchLoop]
      rw [if_neg hs]
      simp only [hbc, Bool.false_eq_true, if_false, hdp]
      exact ih (step / 2)

/-- C4: for every lossy input whose encoded size at quality 1 exceeds the
target (for a size function that is monotone in quality at the default
method, so the target is unreachable), `compress_image` terminates and
returns the quality-1 trial with the default method, for every initial
quality — including initial qualities that clamp to 1. -/
theorem unreachable_target_returns_quality_one :
    ∀ (fmt : Fmt) (png : Nat) (enc : Int → Int → Nat) (logf : ℚ → ℚ)
      (target : ℚ) (iq defM : Int) (thr : ℚ),
      fmt ≠ Fmt.PNG →
      (∀ q q' : Int, q ≤ q' → enc q defM ≤ enc q' defM) →
      target < kb (enc 1 defM) →
      compress_image fmt png enc logf target iq defM thr =
        ⟨enc 1 defM, 1, kb (enc 1 defM), defM⟩ := by
  intro fmt png enc logf target iq defM thr hfmt hmono htar
  have hq0 := clampQ_bounds iq
  have h1 : target < kb (enc (clampQ iq) defM) :=
    lt_of_lt_of_le htar (kb_mono (hmono 1 (clampQ iq) hq0.1))
  unfold compress_image compressFull
  rw [if_neg hfmt]
  dsimp only
  rw [if_pos h1]
  by_cases h2 : clampQ iq ≠ 1
  · rw [if_pos h2, if_pos htar]
    rfl
  · rw [if_neg h2]
    push_neg at h2
    rw [h2]
    unfold finishSearch
    rw [searchLoop_stuck_low enc logf target defM
      ⟨1, kb (enc 1 defM), enc 1 defM⟩ rfl htar _ _]
    dsimp only
    have hbu : best_under target
        [(⟨1, kb (enc 1 defM), enc 1 defM⟩ : EncodeTrial)] = none := by
      simp [best_under, bestUnderStep, not_le.mpr htar]
    rw [hbu]
    rfl

theorem unreachable_target_witness :
    compress_image Fmt.WEBP 0 (fun _ _ => 2048) id 0 1 6 1 =
      ⟨2048, 1, kb 2048, 6⟩ :=
  unreachable_target_returns_quality_one Fmt.WEBP 0 (fun _ _ => 2048) id 0 1 6 1
    (by decide) (fun _ _ _ => le_refl 2048) (by norm_num [kb])

/-! ### Claim C7: WEBP method tuning -/

/-- C7: method tuning runs only for WEBP output and only when the best-under
size is strictly below `target × thr` (default threshold
`method_tuning_threshold / 100 = 0.95`); it probes at the fixed winning
quality with methods `defM - 1, defM - 2, ..., 0`, adopts a probe as the new
best exactly when its size is `≤ target` and strictly larger than the current
best size, and stops at the first probe whose size exceeds the target. -/
theorem method_tuning_spec :
    ∀ (enc : Int → Int → Nat) (target thr : ℚ) (defM : Int)
      (chosen : EncodeTrial),
      (∀ fmt, fmt ≠ Fmt.WEBP →
        methodTuning fmt enc target thr defM chosen =
          ⟨chosen.payload, chosen.quality, chosen.sizeKB, defM⟩) ∧
      (¬ chosen.sizeKB < target * thr →
        methodTuning Fmt.WEBP enc target thr defM chosen =
          ⟨chosen.payload, chosen.quality, chosen.sizeKB, defM⟩) ∧
      (chosen.sizeKB < target * thr →
        methodTuning Fmt.WEBP enc target thr defM chosen =
          ⟨(tuningLoop enc target chosen.quality (methodRange defM)
              (chosen.sizeKB, chosen.payload, defM)).2.1,
            chosen.quality,
            (tuningLoop enc target chosen.quality (methodRange defM)
              (chosen.sizeKB, chosen.payload, defM)).1,
            (tuningLoop enc target chosen.quality (methodRange defM)
              (chosen.sizeKB, chosen.payload, defM)).2.2⟩) ∧
      ((defaultConfig.method_tuning_threshold : ℚ) / 100 = 19 / 20) ∧
      (∀ d : Int, 0 < d → methodRange d = (d - 1) :: methodRange (d - 1)) ∧
      (∀ (m : Int) (ms : List Int) (bs : ℚ) (bb : Nat) (bm : Int),
        (kb (enc chosen.quality m) ≤ target →
          (kb (enc chosen.quality m) > bs →
            tuningLoop enc target chosen.quality (m :: ms) (bs, bb, bm) =
              tuningLoop enc target chosen.quality ms
                (kb (enc chosen.quality m), enc chosen.quality m, m)) ∧
          (¬ kb (enc chosen.quality m) > bs →
            tuningLoop enc target chosen.quality (m :: ms) (bs, bb, bm) =
              tuningLoop enc target chosen.quality ms (bs, bb, bm))) ∧
        (¬ kb (enc chosen.quality m) ≤ target →
          tuningLoop enc target chosen.quality (m :: ms) (bs, bb, bm) =
            (bs, bb, bm))) := by
  intro enc target thr defM chosen
  refine ⟨?_, ?_, ?_, ?_, ?_, ?_⟩
  · intro fmt hfmt
    unfold methodTuning
    rw [if_neg (fun hc => hfmt hc.1)]
  · intro hs
    unfold methodTuning
    rw [if_neg (fun hc => hs hc.2)]
  · intro hs
    unfold methodTuning
    rw [if_pos ⟨rfl, hs⟩]
  · norm_num [defaultConfig]
  · intro d hd
    unfold methodRange
    rw [if_neg (by omega)]
    by_cases h2 : d - 1 ≤ 0
    · have hd1 : d = 1 := by omega
      subst hd1
      decide
    · rw [if_neg h2]
      have h3 : d.toNat = (d - 1).toNat + 1 := by omega
      rw [h3, List.range_succ, List.reverse_append]
      simp [Int.toNat_of_nonneg (by omega : (0 : Int) ≤ d - 1)]
      omega
  · intro m ms bs bb bm
    constructor
    · intro h1
      constructor
      · intro h2
        simp only [tuningLoop]
        rw [if_pos h1, if_pos h2]
      · intro h2
        simp only [tuningLoop]
        rw [if_pos h1, if_neg h2]
    · intro h1
      simp only [tuningLoop]
      rw [if_neg h1]

theorem method_tuning_spec_witness :
    methodTuning Fmt.JPEG (fun _ _ => 8192) 10 1 6 ⟨80, 4, 4096⟩ =
      ⟨4096, 80, 4, 6⟩ ∧
    methodTuning Fmt.WEBP (fun _ _ => 8192) 10 1 6 ⟨80, 4, 4096⟩ =
      ⟨(tuningLoop (fun _ _ => 8192) 10 80 (methodRange 6) (4, 4096, 6)).2.1,
        80,
        (tuningLoop (fun _ _ => 8192) 10 80 (methodRange 6) (4, 4096, 6)).1,
        (tuningLoop (fun _ _ => 8192) 10 80 (methodRange 6) (4, 4096, 6)).2.2⟩ :=
  ⟨(method_tuning_spec (fun _ _ => 8192) 10 1 6 ⟨80, 4, 4096⟩).1 Fmt.JPEG
      (by decide),
    (method_tuning_spec (fun _ _ => 8192) 10 1 6 ⟨80, 4, 4096⟩).2.2.1
      (by norm_num)⟩

/-! ### Claim C9: lossless path -/

/-- C9: for PNG output `compress_image` encodes exactly once, returns that
trial unconditionally whatever the target, and returns the method
sentinel `-1`. -/
theorem lossless_single_probe :
    ∀ (png : Nat) (enc : Int → Int → Nat) (logf : ℚ → ℚ) (target : ℚ)
      (iq defM : Int) (thr : ℚ),
      compressFull Fmt.PNG png enc logf target iq defM thr =
        Outcome.lossless ⟨png, 100, kb png, -1⟩ ∧
      (compressFull Fmt.PNG png enc logf target iq defM thr).probeCount = 1 ∧
      (compress_image Fmt.PNG png enc logf target iq defM thr).method = -1 := by
  intro png enc logf target iq defM thr
  refine ⟨?_, ?_, ?_⟩ <;> simp [compressFull, compress_image, Outcome.probeCount,
    Outcome.result]

end ImageResizer
